import Mathlib

/-!
# Verification of the QMP keyword/archive pipeline

Shallow embedding of `scripts/daily_build.py` and `scripts/gen_keywords.py`:
the keyword normalization and re-tiering pipeline, the archive entry builder
and the archive merge step.  Python strings are modelled as Lean `String`s
(lists of Unicode scalar values); the Unicode-dependent primitives
(`str.strip`, `str.lower`, `unicodedata.normalize("NFD", ·)` plus the
combining-mark filter, and `re.sub(r"\s+", " ", ·)`) are modelled
character-by-character, with the lower-casing and NFD-decomposition tables
restricted to the Latin/Spanish repertoire the scripts are designed for
(identity elsewhere).
-/

namespace QMP

/-! ## Character-level model of the Python string primitives -/

/-- Whitespace, as recognised by Python's `str.strip()` and by `\s` in
`re.sub(r"\s+", " ", s)` (model: the ASCII whitespace characters
space, tab, newline, carriage return, vertical tab, form feed). -/
def pySpace (c : Char) : Bool :=
  c = ' ' || c = '\t' || c = '\n' || c = '\r' || c = Char.ofNat 11 || c = Char.ofNat 12

/-- Python `s.strip()`: remove leading and trailing whitespace. -/
def pyStripL (l : List Char) : List Char :=
  ((l.dropWhile pySpace).reverse.dropWhile pySpace).reverse

/-- Lower-casing table for Python `str.lower()`, restricted to the ASCII
letters and the precomposed accented letters used by the scripts' Spanish
domain; characters outside the table are left unchanged. -/
def pyLowerTable : List (Char × Char) :=
  [('A', 'a'), ('B', 'b'), ('C', 'c'), ('D', 'd'), ('E', 'e'), ('F', 'f'),
   ('G', 'g'), ('H', 'h'), ('I', 'i'), ('J', 'j'), ('K', 'k'), ('L', 'l'),
   ('M', 'm'), ('N', 'n'), ('O', 'o'), ('P', 'p'), ('Q', 'q'), ('R', 'r'),
   ('S', 's'), ('T', 't'), ('U', 'u'), ('V', 'v'), ('W', 'w'), ('X', 'x'),
   ('Y', 'y'), ('Z', 'z'),
   ('Á', 'á'), ('É', 'é'), ('Í', 'í'), ('Ó', 'ó'), ('Ú', 'ú'),
   ('Ü', 'ü'), ('Ñ', 'ñ'),
   ('À', 'à'), ('È', 'è'), ('Ì', 'ì'), ('Ò', 'ò'), ('Ù', 'ù'),
   ('Â', 'â'), ('Ê', 'ê'), ('Î', 'î'), ('Ô', 'ô'), ('Û', 'û'),
   ('Ä', 'ä'), ('Ë', 'ë'), ('Ï', 'ï'), ('Ö', 'ö'), ('Ç', 'ç')]

/-- Python `str.lower()` on one character (see `pyLowerTable`). -/
def pyLower (c : Char) : Char :=
  (pyLowerTable.lookup c).getD c

/-- `unicodedata.category c == "Mn"`: the combining diacritical marks block
U+0300–U+036F (the only Mn characters produced by NFD on the Latin
repertoire modelled here). -/
def isMn (c : Char) : Bool :=
  0x300 ≤ c.toNat && c.toNat ≤ 0x36F

/-- Canonical (NFD) decomposition table, restricted to the precomposed
lowercase Latin letters of the Spanish domain; characters outside the
table decompose to themselves. -/
def nfdTable : List (Char × List Char) :=
  [('á', ['a', Char.ofNat 0x301]), ('é', ['e', Char.ofNat 0x301]),
   ('í', ['i', Char.ofNat 0x301]), ('ó', ['o', Char.ofNat 0x301]),
   ('ú', ['u', Char.ofNat 0x301]),
   ('à', ['a', Char.ofNat 0x300]), ('è', ['e', Char.ofNat 0x300]),
   ('ì', ['i', Char.ofNat 0x300]), ('ò', ['o', Char.ofNat 0x300]),
   ('ù', ['u', Char.ofNat 0x300]),
   ('â', ['a', Char.ofNat 0x302]), ('ê', ['e', Char.ofNat 0x302]),
   ('î', ['i', Char.ofNat 0x302]), ('ô', ['o', Char.ofNat 0x302]),
   ('û', ['u', Char.ofNat 0x302]),
   ('ä', ['a', Char.ofNat 0x308]), ('ë', ['e', Char.ofNat 0x308]),
   ('ï', ['i', Char.ofNat 0x308]), ('ö', ['o', Char.ofNat 0x308]),
   ('ü', ['u', Char.ofNat 0x308]),
   ('ñ', ['n', Char.ofNat 0x303]), ('ç', ['c', Char.ofNat 0x327])]

/-- NFD decomposition of one character (see `nfdTable`). -/
def nfdChar (c : Char) : List Char :=
  (nfdTable.lookup c).getD [c]

/-- `re.sub(r"\s+", " ", s)`: replace each maximal run of whitespace with a
single space.  The Boolean argument records whether the previous character
belonged to a whitespace run. -/
def collapseWsAux : Bool → List Char → List Char
  | _, [] => []
  | prevWs, c :: rest =>
    if pySpace c then
      if prevWs then collapseWsAux true rest
      else ' ' :: collapseWsAux true rest
    else c :: collapseWsAux false rest

/-- `re.sub(r"\s+", " ", s)` on a whole string. -/
def collapseWs (l : List Char) : List Char :=
  collapseWsAux false l

/-- The character pipeline of `daily_build.normalize_no_accents` /
`gen_keywords.normalize_word`: strip, lower-case, NFD-decompose, drop
combining marks, collapse whitespace runs. -/
def normalizeChars (l : List Char) : List Char :=
  collapseWs ((((pyStripL l).map pyLower).flatMap nfdChar).filter (fun c => !isMn c))

/-- `daily_build.normalize_no_accents`:
`s.strip().lower()`, NFD-decompose and drop `Mn` characters,
`re.sub(r"\s+", " ", s)`. -/
def normalize_no_accents (s : String) : String :=
  ⟨normalizeChars s.data⟩

/-- `gen_keywords.normalize_word`: `(s or "").strip().lower()`,
`strip_accents` (NFD + drop `Mn`), collapse whitespace — the same character
pipeline as `normalize_no_accents` (`s or ""` coincides with `s` for the
string inputs it receives: the empty string is mapped to itself either way). -/
def normalize_word (s : String) : String :=
  normalize_no_accents s

/-! ## Keyword records -/

/-- A cleaned keyword: the `{"word": ..., "weight": ...}` dict produced by
the pipeline (weights are Python ints). -/
structure Kw where
  word : String
  weight : Int
deriving DecidableEq, Repr

/-- An incoming keyword candidate dict, as read by
`daily_build.enforce_keyword_rules`: the `word`/`k` and `weight`/`w` keys
may each be absent.  (Model restriction: word values are strings and weight
values integers, the shapes the external generator contract documents.) -/
structure KwIn where
  word? : Option String
  k? : Option String
  weight? : Option Int
  w? : Option Int
deriving DecidableEq, Repr

/-- Python `a or b` for an optional string `a` (absent and `""` are falsy). -/
def orStr (a : Option String) (dflt : String) : String :=
  match a with
  | some s => if s = "" then dflt else s
  | none => dflt

/-- Python `a or b` for an optional int `a` (absent and `0` are falsy). -/
def orInt (a : Option Int) (dflt : Int) : Int :=
  match a with
  | some z => if z = 0 then dflt else z
  | none => dflt

/-- The loop body of `enforce_keyword_rules`: read the word under `word`
(falling back to `k`), the weight under `weight` (falling back to `w`,
then `1`), clamp the weight into `{1,2,3}`, normalize the word, drop empty
and already-seen words. -/
def enforceGo : List KwIn → List String → List Kw
  | [], _ => []
  | it :: rest, seen =>
    let w0 := orInt it.weight? (orInt it.w? 1)
    let wt : Int := if w0 ≥ 3 then 3 else if w0 = 2 then 2 else 1
    let word := normalize_no_accents (orStr it.word? (orStr it.k? ""))
    if word = "" then enforceGo rest seen
    else if word ∈ seen then enforceGo rest seen
    else ⟨word, wt⟩ :: enforceGo rest (word :: seen)

/-- The stable descending-by-weight sort
`cleaned.sort(key=lambda x: -x["weight"])` (Python `list.sort` is a stable
sort; `mergeSort` with this comparator is the stable sort by that key). -/
def sortByWeightDesc (l : List Kw) : List Kw :=
  l.mergeSort (fun a b => decide (b.weight ≤ a.weight))

/-- `daily_build.enforce_keyword_rules`: clean/clamp/normalize/dedupe, then
stable-sort by weight descending and truncate to 30. -/
def enforce_keyword_rules (items : List KwIn) : List Kw :=
  (sortByWeightDesc (enforceGo items [])).take 30

/-- The body of the `for i, kw in enumerate(kws)` loop of
`redistribute_weights`, carrying the running index. -/
def retierGo (top3 mid2 : Nat) : Nat → List Kw → List Kw
  | _, [] => []
  | i, kw :: rest =>
    ⟨kw.word, if i < top3 then (3 : Int) else if i < top3 + mid2 then 2 else 1⟩ ::
      retierGo top3 mid2 (i + 1) rest

/-- `daily_build.redistribute_weights`: re-tier weights purely by rank
position — the first `top3` entries get weight 3, the next `mid2` weight 2,
the rest weight 1, with the band sizes computed from the list length
exactly as in the source. -/
def redistribute_weights (kws : List Kw) : List Kw :=
  let n := kws.length
  if n = 0 then kws
  else
    let top3a := min 5 n
    let top3 := if n ≥ 3 then max 3 top3a else n
    let remaining := n - top3
    let mid2a := min 10 remaining
    let mid2 := if remaining ≥ 6 then max 6 mid2a else remaining
    retierGo top3 mid2 0 kws

/-- The banding rule exactly as the claim states it: the first
`min(5,n)` entries (all `n` when `n < 3`) get weight 3, the next band of
size `min(10, remaining)` (all remaining when `remaining < 6`) weight 2,
everything after weight 1. -/
def claimTopSize (n : Nat) : Nat :=
  if 3 ≤ n then min 5 n else n

/-- Size of the weight-2 band per the claim's wording. -/
def claimMidSize (n : Nat) : Nat :=
  let r := n - claimTopSize n
  if 6 ≤ r then min 10 r else r

/-- The claimed final weight as a function of rank position and list size. -/
def claimBandWeight (i n : Nat) : Int :=
  if i < claimTopSize n then 3
  else if i < claimTopSize n + claimMidSize n then 2
  else 1

/-! ## `gen_keywords.dedupe_keep_best` and the gen_keywords truncation -/

/-- `seen[w] = max(seen[w], weight)` on the association list modelling the
`seen` dict of `dedupe_keep_best` (the word is known to be present). -/
def seenSetMax : List (String × Int) → String → Int → List (String × Int)
  | [], w, v => [(w, v)]
  | (a, b) :: rest, w, v =>
    if a = w then (a, max b v) :: rest else (a, b) :: seenSetMax rest w v

/-- The loop of `gen_keywords.dedupe_keep_best`: build the `seen` dict
(word ↦ best weight) and the `order` list (first-appearance order). -/
def dkbGo : List Kw → List (String × Int) → List String → List (String × Int) × List String
  | [], seen, order => (seen, order)
  | k :: rest, seen, order =>
    if (seen.lookup k.word).isSome then
      dkbGo rest (seenSetMax seen k.word k.weight) order
    else
      dkbGo rest ((k.word, k.weight) :: seen) (order ++ [k.word])

/-- `gen_keywords.dedupe_keep_best`: on repeated words keep the maximum
weight seen, preserving first-appearance order. -/
def dedupe_keep_best (kws : List Kw) : List Kw :=
  let sd := dkbGo kws [] []
  sd.2.map (fun w => ⟨w, (sd.1.lookup w).getD 0⟩)

/-- Lines 172–173 of `gen_keywords.main`: `kws = dedupe_keep_best(kws)`
then `kws = kws[:30]` — truncation **without** any sort. -/
def gen_keywords_postprocess (kws : List Kw) : List Kw :=
  (dedupe_keep_best kws).take 30

/-! ## JSON values and the two response-shape readers -/

/-- JSON values, as produced by `json.loads` (model: numbers are the
integers the keyword protocol uses). -/
inductive Json where
  | null : Json
  | bool : Bool → Json
  | num : Int → Json
  | str : String → Json
  | arr : List Json → Json
  | obj : List (String × Json) → Json
deriving Repr

/-- Python `str(·)` of a JSON value (scalar cases exact; the container
renderings are never reached by the keyword protocol, whose `word` values
are strings). -/
def pyStr : Json → String
  | .str s => s
  | .num n => toString n
  | .bool true => "True"
  | .bool false => "False"
  | .null => "None"
  | .arr _ => "[...]"
  | .obj _ => "\x7b...\x7d"

/-- Python `int(·)` of a JSON value, `none` when it raises (model: strings
via `String.toInt?`, booleans to 0/1, containers and null fail). -/
def pyInt : Json → Option Int
  | .num n => some n
  | .bool b => some (if b then 1 else 0)
  | .str s => s.toInt?
  | _ => none

/-- `gen_keywords.clamp_weight`: coerce to int (default 1 on failure) and
clamp into the closed range [1,3]. -/
def clamp_weight (j : Json) : Int :=
  let w := (pyInt j).getD 1
  if w > 3 then 3 else if w < 1 then 1 else w

/-- Errors surfaced by the two scripts' response handling. -/
inductive RespError where
  | notAList : RespError      -- `die("La respuesta JSON no es una lista de keywords.")`
  | attributeError : RespError -- Python `AttributeError` (`.get` on a non-dict)
deriving DecidableEq, Repr

/-- `gen_keywords.parse_keywords_json`, applied to the already-parsed JSON
value (the `json.loads`/code-fence recovery layer sits upstream of this
model): unwrap a `keywords` field if the root is an object carrying one,
fail unless the result is a list, then clean each dict item — normalize the
`word` (skipping items that are not dicts or whose normalized word is
empty) and clamp the `weight`. -/
def parse_keywords_json (data : Json) : Except RespError (List Kw) :=
  let data1 := match data with
    | .obj fs =>
      match fs.lookup "keywords" with
      | some v => v
      | none => .obj fs
    | other => other
  match data1 with
  | .arr items =>
    .ok (items.filterMap (fun item =>
      match item with
      | .obj fs =>
        let word := normalize_word (pyStr ((fs.lookup "word").getD (.str "")))
        if word = "" then none
        else some ⟨word, clamp_weight ((fs.lookup "weight").getD (.num 1))⟩
      | _ => none))
  | _ => .error .notAList

/-- Lines 235–238 of `daily_build.call_openai_keywords`:
`kws = data.get("keywords", [])` (an `AttributeError` when the parsed
response is not a dict — in particular when it is a flat list) followed by
`if not isinstance(kws, list): return []`.  Returns the raw candidate list
handed on to `enforce_keyword_rules`/`redistribute_weights`. -/
def call_openai_extract (data : Json) : Except RespError (List Json) :=
  match data with
  | .obj fs =>
    match (fs.lookup "keywords").getD (.arr []) with
    | .arr l => .ok l
    | _ => .ok []
  | _ => .error .attributeError

/-! ## Archive load, entry build, merge -/

/-- Failure of `daily_build.load_entries` (`ValueError`: the file's root is
not a JSON list — the spec's `MalformedArchiveError`). -/
inductive LoadError where
  | malformed : LoadError
deriving DecidableEq, Repr

/-- `daily_build.load_entries`: storage is `none` when the archive file
does not exist (then the result is `[]`), otherwise the parsed JSON root;
a root that is not a list raises. -/
def load_entries : Option Json → Except LoadError (List Json)
  | none => .ok []
  | some (.arr l) => .ok l
  | some _ => .error .malformed

/-- The nested `analysis` record of an archive entry. -/
structure AnalysisRec where
  poet : String
  poem_title : String
  poem_snippet : String
  book_title : String
deriving DecidableEq, Repr

/-- One archive entry, as built by `daily_build.build_entry` and stored in
`archivo.json`. -/
structure ArchiveEntry where
  date : String
  month : String
  file : String
  my_poem_title : String
  my_poem_snippet : String
  analysis : AnalysisRec
  keywords : List Kw
deriving DecidableEq, Repr

/-- The parsed metadata mapping (canonical keys only; a key is `none` when
absent from the document and not supplied by fallback or override). -/
structure Meta where
  date? : Option String
  poet? : Option String
  poem_title? : Option String
  poem_snippet? : Option String
  book_title? : Option String
  my_poem_title? : Option String
  my_poem_snippet? : Option String
deriving DecidableEq, Repr

/-- Python `s.strip()` on a `String`. -/
def pyStrip (s : String) : String :=
  ⟨pyStripL s.data⟩

/-- `re.match(r"^\d{4}-\d{2}-\d{2}$", s)` as a Boolean: exactly
`YYYY-MM-DD` (`$` can also match before one trailing newline, but
`build_entry` only tests stripped strings, which never end in a newline;
model: ASCII digits). -/
def dateRe (l : List Char) : Bool :=
  match l with
  | [y1, y2, y3, y4, d1, m1, m2, d2, a1, a2] =>
    y1.isDigit && y2.isDigit && y3.isDigit && y4.isDigit && d1 = '-' &&
      m1.isDigit && m2.isDigit && d2 = '-' && a1.isDigit && a2.isDigit
  | _ => false

/-- Failure of `daily_build.build_entry` (`ValueError` on a bad or absent
date — the spec's `ValidationError`). -/
inductive BuildError where
  | validationError : BuildError
deriving DecidableEq, Repr

/-- `daily_build.build_entry`: strip the `date` value, fail unless it
matches `YYYY-MM-DD`, and assemble the entry — `month` is `date[:7]`, all
other string fields are looked up with default `""` and stripped. -/
def build_entry (meta : Meta) (txt_relpath : String) (keywords : List Kw) :
    Except BuildError ArchiveEntry :=
  let date := pyStrip (meta.date?.getD "")
  if dateRe date.data then
    .ok ⟨date, ⟨date.data.take 7⟩, txt_relpath,
      pyStrip (meta.my_poem_title?.getD ""),
      pyStrip (meta.my_poem_snippet?.getD ""),
      ⟨pyStrip (meta.poet?.getD ""), pyStrip (meta.poem_title?.getD ""),
        pyStrip (meta.poem_snippet?.getD ""), pyStrip (meta.book_title?.getD "")⟩,
      keywords⟩
  else .error .validationError

/-- `daily_build.sort_entries_desc`:
`sorted(entries, key=lambda e: e.get("date", ""), reverse=True)` — a stable
descending sort on the date string (every `ArchiveEntry` carries its date). -/
def sort_entries_desc (entries : List ArchiveEntry) : List ArchiveEntry :=
  entries.mergeSort (fun a b => decide (b.date ≤ a.date))

/-- Failure of the merge step of `daily_build.main` (`ValueError`: an entry
with the same date already exists — the spec's `DuplicateDateError`). -/
inductive MergeError where
  | duplicateDate : MergeError
deriving DecidableEq, Repr

/-- Lines 327–331 of `daily_build.main`: fail if any existing entry has the
new entry's date, else append and re-sort by date descending. -/
def merge_entry (entries : List ArchiveEntry) (entry : ArchiveEntry) :
    Except MergeError (List ArchiveEntry) :=
  if entries.any (fun e => e.date == entry.date) then .error .duplicateDate
  else .ok (sort_entries_desc (entries ++ [entry]))

/-- The persisted archive after the merge step: `main` raises before
`JSON_PATH.write_text`, so on failure the stored list is untouched; on
success the returned list is written back whole. -/
def archive_after (entries : List ArchiveEntry) (entry : ArchiveEntry) :
    List ArchiveEntry :=
  match merge_entry entries entry with
  | .error _ => entries
  | .ok l => l

/-- Is the JSON root a list? (Used to state the malformed-storage case.) -/
def jsonIsArr : Json → Bool
  | .arr _ => true
  | _ => false

/-! # Lemmas about the re-tiering loop -/

theorem retierGo_getElem? (t m : Nat) :
    ∀ (l : List Kw) (i j : Nat),
      (retierGo t m i l)[j]? =
        l[j]?.map (fun kw =>
          ⟨kw.word, if i + j < t then (3 : Int) else if i + j < t + m then 2 else 1⟩)
  | [], _, _ => by simp [retierGo]
  | kw :: rest, i, 0 => by simp [retierGo]
  | kw :: rest, i, j + 1 => by
    have h : i + 1 + j = i + (j + 1) := by omega
    simp only [retierGo, List.getElem?_cons_succ]
    rw [retierGo_getElem? t m rest (i + 1) j, h]

theorem retierGo_map_word (t m : Nat) :
    ∀ (l : List Kw) (i : Nat), (retierGo t m i l).map Kw.word = l.map Kw.word
  | [], _ => rfl
  | kw :: rest, i => by
    simp [retierGo, retierGo_map_word t m rest (i + 1)]

theorem retierGo_length (t m : Nat) :
    ∀ (l : List Kw) (i : Nat), (retierGo t m i l).length = l.length
  | [], _ => rfl
  | kw :: rest, i => by
    simp [retierGo, retierGo_length t m rest (i + 1)]

/-- The source's weight-3 band size agrees with the claim's wording. -/
theorem topSize_eq (n : Nat) :
    (if n ≥ 3 then max 3 (min 5 n) else n) = claimTopSize n := by
  simp only [claimTopSize, ge_iff_le]
  split_ifs <;> omega

/-- The source's weight-2 band size agrees with the claim's wording. -/
theorem midSize_eq (n : Nat) :
    (let r := n - claimTopSize n; if r ≥ 6 then max 6 (min 10 r) else r) =
      claimMidSize n := by
  simp only [claimMidSize, ge_iff_le]
  split_ifs <;> omega

/-- Pointwise description of `redistribute_weights`: position `j` keeps its
word and gets exactly the claimed band weight for position `j` in a list of
the input's length. -/
theorem redistribute_weights_getElem? (kws : List Kw) (j : Nat) :
    (redistribute_weights kws)[j]? =
      kws[j]?.map (fun kw => ⟨kw.word, claimBandWeight j kws.length⟩) := by
  unfold redistribute_weights
  by_cases h0 : kws.length = 0
  · rw [List.length_eq_zero] at h0
    subst h0
    simp
  · simp only [h0, if_false]
    rw [retierGo_getElem?]
    have ht : (if kws.length ≥ 3 then max 3 (min 5 kws.length) else kws.length) =
        claimTopSize kws.length := topSize_eq kws.length
    rw [ht, midSize_eq]
    simp only [Nat.zero_add, claimBandWeight]

theorem claimBandWeight_cases (i n : Nat) :
    claimBandWeight i n = 1 ∨ claimBandWeight i n = 2 ∨ claimBandWeight i n = 3 := by
  unfold claimBandWeight
  split_ifs <;> simp

/-- **C1.** `redistribute_weights` assigns to position `j` (for every
position of the input) exactly the claimed band weight — 3 on the first
`min(5,n)` entries (all of them when `n < 3`), 2 on the next
`min(10, remaining)` entries (all remaining when `remaining < 6`), 1
beyond, as computed by `claimTopSize`/`claimMidSize`/`claimBandWeight`
which transcribe the claim's wording — keeping the input's word at that
position, so the final weight is a function of rank position and list size
alone and overrides the incoming weight; every output weight is in
`{1,2,3}`. -/
theorem redistribute_weights_band (kws : List Kw) :
    (∀ j : Nat, (redistribute_weights kws)[j]? =
        kws[j]?.map (fun kw => ⟨kw.word, claimBandWeight j kws.length⟩)) ∧
    (∀ kw ∈ redistribute_weights kws,
      kw.weight = 1 ∨ kw.weight = 2 ∨ kw.weight = 3) := by
  refine ⟨fun j => redistribute_weights_getElem? kws j, fun kw hkw => ?_⟩
  rcases List.mem_iff_getElem?.mp hkw with ⟨j, hj⟩
  rw [redistribute_weights_getElem? kws j] at hj
  rcases hx : kws[j]? with _ | kw0
  · rw [hx] at hj; simp at hj
  · rw [hx] at hj
    simp only [Option.map_some', Option.some.injEq] at hj
    rw [← hj]
    exact claimBandWeight_cases j kws.length

/-- **C10.** `redistribute_weights` returns a list of the same length whose
words are exactly the input words in the same order. -/
theorem redistribute_weights_frame (kws : List Kw) :
    (redistribute_weights kws).length = kws.length ∧
    (redistribute_weights kws).map Kw.word = kws.map Kw.word := by
  unfold redistribute_weights
  by_cases h0 : kws.length = 0
  · simp [h0]
  · simp only [h0, if_false]
    exact ⟨retierGo_length _ _ kws 0, retierGo_map_word _ _ kws 0⟩

/-! # Loading the archive (C3) -/

/-- **C3.** Loading from non-existent storage (or from storage holding the
empty archive) yields the empty sequence without error; loading a list root
yields exactly that list; loading any root that is not a list fails with
the malformed-archive error. -/
theorem load_entries_spec :
    load_entries none = .ok [] ∧
    load_entries (some (.arr [])) = .ok [] ∧
    (∀ l, load_entries (some (.arr l)) = .ok l) ∧
    (∀ j, jsonIsArr j = false → load_entries (some j) = .error .malformed) := by
  refine ⟨rfl, rfl, fun l => rfl, fun j hj => ?_⟩
  cases j <;> first | rfl | simp [jsonIsArr] at hj

theorem load_entries_spec_witness :
    jsonIsArr (.obj []) = false ∧
    load_entries (some (.obj [])) = .error .malformed :=
  ⟨rfl, load_entries_spec.2.2.2 (.obj []) rfl⟩

/-! # The two response shapes (C4) -/

/-- **C4 counterexample.** The flat-list response shape — a perfectly
well-formed `[{word, weight}]` list — makes the `daily_build` extraction
(`data.get("keywords", [])`) raise an `AttributeError` instead of being
accepted: the core does not accept both shapes at both call sites. -/
theorem call_openai_extract_flat_fails :
    call_openai_extract (.arr [.obj [("word", .str "mar"), ("weight", .num 3)]]) =
      .error .attributeError := rfl

/-- **C4 (amended).** `gen_keywords.parse_keywords_json` accepts both
response shapes — a flat list of `{word, weight}` objects and an object
carrying a `keywords` list — extracting the same candidate list from
either without failing; the `daily_build.call_openai_keywords` site
accepts only the object shape (from which it extracts the carried list)
and fails on a flat list. -/
theorem keyword_response_shapes (items : List Json) :
    (parse_keywords_json (.arr items)).isOk = true ∧
    parse_keywords_json (.obj [("keywords", .arr items)]) =
      parse_keywords_json (.arr items) ∧
    call_openai_extract (.obj [("keywords", .arr items)]) = .ok items ∧
    (call_openai_extract (.arr items)).isOk = false := by
  refine ⟨rfl, ?_, ?_, rfl⟩
  · simp [parse_keywords_json, List.lookup]
  · simp [call_openai_extract, List.lookup]

/-! # The merge step (C2, C8) -/

/-- **C2.** When some existing archive entry already carries the new
entry's date, the merge step fails with the duplicate-date error, and the
persisted archive is unchanged (`main` raises before `write_text`, so no
write occurs). -/
theorem merge_entry_duplicate (entries : List ArchiveEntry) (entry : ArchiveEntry)
    (hdup : entries.any (fun e => e.date == entry.date) = true) :
    merge_entry entries entry = .error .duplicateDate ∧
    archive_after entries entry = entries := by
  have h1 : merge_entry entries entry = .error .duplicateDate := by
    unfold merge_entry
    simp [hdup]
  exact ⟨h1, by unfold archive_after; rw [h1]⟩

def dupOld : ArchiveEntry :=
  ⟨"2025-01-01", "2025-01", "textos/2025-01-01.txt", "", "", ⟨"", "", "", ""⟩, []⟩

def dupNew : ArchiveEntry :=
  ⟨"2025-01-01", "2025-01", "textos/otra.txt", "t", "s", ⟨"p", "q", "r", "b"⟩, []⟩

theorem merge_entry_duplicate_witness :
    (List.any [dupOld] (fun e => e.date == dupNew.date) = true) ∧
    merge_entry [dupOld] dupNew = .error .duplicateDate ∧
    archive_after [dupOld] dupNew = [dupOld] :=
  ⟨by decide, (merge_entry_duplicate [dupOld] dupNew (by decide)).1,
    (merge_entry_duplicate [dupOld] dupNew (by decide)).2⟩

theorem entry_le_trans (a b c : ArchiveEntry) :
    (fun x y : ArchiveEntry => decide (y.date ≤ x.date)) a b = true →
    (fun x y : ArchiveEntry => decide (y.date ≤ x.date)) b c = true →
    (fun x y : ArchiveEntry => decide (y.date ≤ x.date)) a c = true := by
  simp only [decide_eq_true_eq]
  exact fun h1 h2 => le_trans h2 h1

theorem entry_le_total (a b : ArchiveEntry) :
    ((fun x y : ArchiveEntry => decide (y.date ≤ x.date)) a b ||
      (fun x y : ArchiveEntry => decide (y.date ≤ x.date)) b a) = true := by
  simp only [Bool.or_eq_true, decide_eq_true_eq]
  exact le_total b.date a.date

/-- **C8.** When no existing entry carries the new entry's date, the merge
step succeeds with the appended-and-resorted list: a permutation of the old
entries plus the new one, sorted by date descending (string `≤` on the ISO
dates), so the archive is date-descending after every write. -/
theorem merge_entry_success (entries : List ArchiveEntry) (entry : ArchiveEntry)
    (h : entries.any (fun e => e.date == entry.date) = false) :
    merge_entry entries entry = .ok (sort_entries_desc (entries ++ [entry])) ∧
    List.Perm (sort_entries_desc (entries ++ [entry])) (entry :: entries) ∧
    (sort_entries_desc (entries ++ [entry])).Pairwise
      (fun a b => b.date ≤ a.date) := by
  refine ⟨by unfold merge_entry; simp [h], ?_, ?_⟩
  · exact (List.mergeSort_perm (entries ++ [entry]) _).trans
      (List.perm_append_singleton entry entries)
  · have hp := List.sorted_mergeSort entry_le_trans entry_le_total
      (entries ++ [entry])
    exact hp.imp (fun hab => of_decide_eq_true hab)

def janEntry : ArchiveEntry :=
  ⟨"2025-01-01", "2025-01", "textos/2025-01-01.txt", "", "", ⟨"", "", "", ""⟩, []⟩

def febEntry : ArchiveEntry :=
  ⟨"2025-02-01", "2025-02", "textos/2025-02-01.txt", "", "", ⟨"", "", "", ""⟩, []⟩

theorem merge_entry_success_witness :
    (List.any [febEntry] (fun e => e.date == janEntry.date) = false) ∧
    (merge_entry [febEntry] janEntry =
        .ok (sort_entries_desc ([febEntry] ++ [janEntry])) ∧
      List.Perm (sort_entries_desc ([febEntry] ++ [janEntry]))
        (janEntry :: [febEntry]) ∧
      (sort_entries_desc ([febEntry] ++ [janEntry])).Pairwise
        (fun a b => b.date ≤ a.date)) :=
  ⟨by decide, merge_entry_success [febEntry] janEntry (by decide)⟩

/-! # Building an entry (C7) -/

/-- **C7 counterexample.** The metadata date `" 2025-01-01"` does not match
the pattern `YYYY-MM-DD` exactly, yet `build_entry` succeeds, because the
source strips the value before testing the pattern: failure is not
equivalent to "`date` absent or not matching the pattern exactly". -/
theorem build_entry_unstripped_date :
    dateRe " 2025-01-01".data = false ∧
    (build_entry ⟨some " 2025-01-01", none, none, none, none, none, none⟩
        "textos/f.txt" []).isOk = true := by
  exact ⟨rfl, rfl⟩

/-- **C7 (amended).** `build_entry` fails with the validation error exactly
when the *stripped* date value does not match `YYYY-MM-DD`; on success the
entry's `date` is the stripped value, `month` is its first 7 characters,
and every string field looked up from absent metadata is the empty string
in the result. -/
theorem build_entry_spec (meta : Meta) (f : String) (kws : List Kw) :
    (dateRe (pyStrip (meta.date?.getD "")).data = false →
      build_entry meta f kws = .error .validationError) ∧
    (dateRe (pyStrip (meta.date?.getD "")).data = true →
      build_entry meta f kws =
        .ok ⟨pyStrip (meta.date?.getD ""),
          ⟨(pyStrip (meta.date?.getD "")).data.take 7⟩, f,
          pyStrip (meta.my_poem_title?.getD ""),
          pyStrip (meta.my_poem_snippet?.getD ""),
          ⟨pyStrip (meta.poet?.getD ""), pyStrip (meta.poem_title?.getD ""),
            pyStrip (meta.poem_snippet?.getD ""),
            pyStrip (meta.book_title?.getD "")⟩, kws⟩) ∧
    (∀ e, build_entry meta f kws = .ok e →
      e.date = pyStrip (meta.date?.getD "") ∧
      e.month.data = e.date.data.take 7 ∧
      (meta.poet? = none → e.analysis.poet = "") ∧
      (meta.poem_title? = none → e.analysis.poem_title = "") ∧
      (meta.poem_snippet? = none → e.analysis.poem_snippet = "") ∧
      (meta.book_title? = none → e.analysis.book_title = "") ∧
      (meta.my_poem_title? = none → e.my_poem_title = "") ∧
      (meta.my_poem_snippet? = none → e.my_poem_snippet = "")) := by
  refine ⟨fun h => ?_, fun h => ?_, fun e he => ?_⟩
  · unfold build_entry
    simp [h]
  · unfold build_entry
    simp [h]
  · unfold build_entry at he
    by_cases h : dateRe (pyStrip (meta.date?.getD "")).data
    · simp only [h, if_true, Except.ok.injEq] at he
      subst he
      refine ⟨rfl, rfl, ?_, ?_, ?_, ?_, ?_, ?_⟩ <;>
        intro hn <;> simp [hn, pyStrip, pyStripL]
    · simp [h] at he

/-! # Properties of the character-level normalization -/

theorem lookup_mem {β : Type} :
    ∀ {l : List (Char × β)} {c : Char} {d : β}, l.lookup c = some d → (c, d) ∈ l
  | [], c, d => by
    intro h
    simp [List.lookup] at h
  | (k, b) :: rest, c, d => by
    intro h
    cases hbeq : (c == k) with
    | false =>
      simp only [List.lookup, hbeq] at h
      exact List.mem_cons_of_mem _ (lookup_mem h)
    | true =>
      simp only [List.lookup, hbeq, Option.some.injEq] at h
      have hck : c = k := eq_of_beq hbeq
      subst hck
      subst h
      exact List.mem_cons_self _ _

/-- Every character produced by lower-casing followed by NFD decomposition
is itself a `pyLower` fixpoint (i.e. already lower-case in the model). -/
theorem pyLower_fixes_nfd (c : Char) :
    ∀ x ∈ nfdChar (pyLower c), pyLower x = x := by
  cases h : pyLowerTable.lookup c with
  | some d =>
    have hmem : (c, d) ∈ pyLowerTable := lookup_mem h
    have hall : ∀ p ∈ pyLowerTable, ∀ x ∈ nfdChar p.2, pyLower x = x := by decide
    intro x hx
    have hd : pyLower c = d := by simp [pyLower, h]
    rw [hd] at hx
    exact hall (c, d) hmem x hx
  | none =>
    have hc : pyLower c = c := by simp [pyLower, h]
    rw [hc]
    cases h2 : nfdTable.lookup c with
    | some ds =>
      have hmem : (c, ds) ∈ nfdTable := lookup_mem h2
      have hall : ∀ p ∈ nfdTable, ∀ x ∈ p.2, pyLower x = x := by decide
      intro x hx
      rw [nfdChar, h2] at hx
      exact hall (c, ds) hmem x hx
    | none =>
      intro x hx
      rw [nfdChar, h2] at hx
      simp at hx
      subst hx
      exact hc

theorem collapseWsAux_mem :
    ∀ (b : Bool) (l : List Char) (x : Char),
      x ∈ collapseWsAux b l → x = ' ' ∨ x ∈ l
  | _, [], x => by simp [collapseWsAux]
  | b, c :: rest, x => by
    intro hx
    by_cases hc : pySpace c
    · cases b with
      | true =>
        simp only [collapseWsAux, hc, if_true] at hx
        rcases collapseWsAux_mem true rest x hx with h | h
        · exact Or.inl h
        · exact Or.inr (List.mem_cons_of_mem _ h)
      | false =>
        simp only [collapseWsAux, hc] at hx
        simp only [if_true, Bool.false_eq_true, if_false, List.mem_cons] at hx
        rcases hx with rfl | hx
        · exact Or.inl rfl
        · rcases collapseWsAux_mem true rest x hx with h | h
          · exact Or.inl h
          · exact Or.inr (List.mem_cons_of_mem _ h)
    · simp only [collapseWsAux, hc, Bool.false_eq_true, if_false, List.mem_cons] at hx
      rcases hx with rfl | hx
      · exact Or.inr (List.mem_cons_self _ _)
      · rcases collapseWsAux_mem false rest x hx with h | h
        · exact Or.inl h
        · exact Or.inr (List.mem_cons_of_mem _ h)

theorem collapseWsAux_space :
    ∀ (b : Bool) (l : List Char) (x : Char),
      x ∈ collapseWsAux b l → pySpace x = true → x = ' '
  | _, [], x => by simp [collapseWsAux]
  | b, c :: rest, x => by
    intro hx hsp
    by_cases hc : pySpace c
    · cases b with
      | true =>
        simp only [collapseWsAux, hc, if_true] at hx
        exact collapseWsAux_space true rest x hx hsp
      | false =>
        simp only [collapseWsAux, hc] at hx
        simp only [if_true, Bool.false_eq_true, if_false, List.mem_cons] at hx
        rcases hx with rfl | hx
        · rfl
        · exact collapseWsAux_space true rest x hx hsp
    · simp only [collapseWsAux, hc, Bool.false_eq_true, if_false, List.mem_cons] at hx
      rcases hx with rfl | hx
      · rw [hsp] at hc; exact absurd rfl hc
      · exact collapseWsAux_space false rest x hx hsp

theorem collapseWsAux_head_true :
    ∀ (l : List Char) (x : Char),
      (collapseWsAux true l).head? = some x → pySpace x = false
  | [], x => by simp [collapseWsAux]
  | c :: rest, x => by
    by_cases hc : pySpace c
    · simp only [collapseWsAux, hc, if_true]
      exact collapseWsAux_head_true rest x
    · simp only [collapseWsAux, hc, Bool.false_eq_true, if_false, List.head?_cons,
        Option.some.injEq]
      rintro rfl
      simpa using hc

theorem collapseWsAux_chain :
    ∀ (b : Bool) (l : List Char),
      (collapseWsAux b l).Chain' (fun x y => ¬(pySpace x ∧ pySpace y))
  | _, [] => by simp [collapseWsAux]
  | b, c :: rest => by
    by_cases hc : pySpace c
    · cases b with
      | true =>
        simp only [collapseWsAux, hc, if_true]
        exact collapseWsAux_chain true rest
      | false =>
        simp only [collapseWsAux, hc]
        simp only [if_true, Bool.false_eq_true, if_false]
        rw [List.chain'_cons']
        refine ⟨fun y hy => ?_, collapseWsAux_chain true rest⟩
        have := collapseWsAux_head_true rest y hy
        simp [this]
    · simp only [collapseWsAux, hc, Bool.false_eq_true, if_false]
      rw [List.chain'_cons']
      refine ⟨fun y hy => ?_, collapseWsAux_chain false rest⟩
      simp [hc]

/-- The characters of a normalized word are lower-case, free of combining
marks, and whitespace appears only as isolated single spaces. -/
theorem normalizeChars_props (l : List Char) :
    (∀ x ∈ normalizeChars l, pyLower x = x) ∧
    (∀ x ∈ normalizeChars l, isMn x = false) ∧
    (∀ x ∈ normalizeChars l, pySpace x = true → x = ' ') ∧
    (normalizeChars l).Chain' (fun x y => ¬(pySpace x ∧ pySpace y)) := by
  unfold normalizeChars collapseWs
  refine ⟨?_, ?_, fun x hx => collapseWsAux_space _ _ x hx, collapseWsAux_chain _ _⟩
  · intro x hx
    rcases collapseWsAux_mem _ _ x hx with rfl | hx2
    · decide
    · have hx3 := List.mem_filter.mp hx2
      rcases List.mem_flatMap.mp hx3.1 with ⟨a, ha, hxa⟩
      rcases List.mem_map.mp ha with ⟨a0, _, rfl⟩
      exact pyLower_fixes_nfd a0 x hxa
  · intro x hx
    rcases collapseWsAux_mem _ _ x hx with rfl | hx2
    · decide
    · have hx3 := List.mem_filter.mp hx2
      simpa using hx3.2

/-! # Properties of the cleaning loop -/

/-- Every keyword surviving `enforceGo` has a normalized, non-empty word
not in the incoming `seen` set, and the surviving words are pairwise
distinct. -/
theorem enforceGo_inv :
    ∀ (items : List KwIn) (seen : List String),
      (∀ kw ∈ enforceGo items seen,
        (∃ s, kw.word = normalize_no_accents s) ∧ kw.word ≠ "" ∧ kw.word ∉ seen) ∧
      ((enforceGo items seen).map Kw.word).Nodup
  | [], seen => by simp [enforceGo]
  | it :: rest, seen => by
    simp only [enforceGo]
    by_cases hW : normalize_no_accents (orStr it.word? (orStr it.k? "")) = ""
    · simpa [hW] using enforceGo_inv rest seen
    · by_cases hMem : normalize_no_accents (orStr it.word? (orStr it.k? "")) ∈ seen
      · simpa [hW, hMem] using enforceGo_inv rest seen
      · simp only [hW, hMem, if_false]
        have ih := enforceGo_inv rest
          (normalize_no_accents (orStr it.word? (orStr it.k? "")) :: seen)
        constructor
        · intro kw hkw
          rcases List.mem_cons.mp hkw with rfl | hkw2
          · exact ⟨⟨orStr it.word? (orStr it.k? ""), rfl⟩, hW, hMem⟩
          · rcases ih.1 kw hkw2 with ⟨hs, hne, hnin⟩
            exact ⟨hs, hne, fun hc => hnin (List.mem_cons_of_mem _ hc)⟩
        · simp only [List.map_cons, List.nodup_cons]
          refine ⟨fun hc => ?_, ih.2⟩
          rcases List.mem_map.mp hc with ⟨kw, hkw, hkweq⟩
          rcases ih.1 kw hkw with ⟨_, _, hnin⟩
          exact hnin (hkweq ▸ List.mem_cons_self _ _)

/-- **C6.** `enforce_keyword_rules` returns at most 30 entries; every
returned word is non-empty, lower-case (a `pyLower` fixpoint character by
character), free of combining diacritical marks, whitespace-collapsed
(all whitespace is isolated single spaces), and unique within the returned
list; and the normalization indeed maps "ilusión" to "ilusion". -/
theorem enforce_keyword_rules_canonical (items : List KwIn) :
    (enforce_keyword_rules items).length ≤ 30 ∧
    (∀ kw ∈ enforce_keyword_rules items,
      kw.word ≠ "" ∧
      (∀ c ∈ kw.word.data, pyLower c = c) ∧
      (∀ c ∈ kw.word.data, isMn c = false) ∧
      (∀ c ∈ kw.word.data, pySpace c = true → c = ' ') ∧
      kw.word.data.Chain' (fun x y => ¬(pySpace x ∧ pySpace y))) ∧
    ((enforce_keyword_rules items).map Kw.word).Nodup ∧
    normalize_no_accents "ilusión" = "ilusion" := by
  have hinv := enforceGo_inv items []
  have hmemsort : ∀ kw ∈ enforce_keyword_rules items, kw ∈ enforceGo items [] := by
    intro kw hkw
    have h1 : kw ∈ sortByWeightDesc (enforceGo items []) :=
      (List.take_sublist 30 _).subset hkw
    exact List.mem_mergeSort.mp h1
  refine ⟨List.length_take_le 30 _, ?_, ?_, by decide⟩
  · intro kw hkw
    rcases hinv.1 kw (hmemsort kw hkw) with ⟨⟨s, hs⟩, hne, -⟩
    have hdata : kw.word.data = normalizeChars s.data := by rw [hs]; rfl
    have hp := normalizeChars_props s.data
    rw [hdata]
    exact ⟨hne, hp.1, hp.2.1, hp.2.2.1, hp.2.2.2⟩
  · have hperm : List.Perm ((sortByWeightDesc (enforceGo items [])).map Kw.word)
        ((enforceGo items []).map Kw.word) :=
      (List.mergeSort_perm (enforceGo items []) _).map Kw.word
    have h1 : ((sortByWeightDesc (enforceGo items [])).map Kw.word).Nodup :=
      hperm.nodup_iff.mpr hinv.2
    rw [enforce_keyword_rules, List.map_take]
    exact (List.take_sublist 30 _).nodup h1

/-! # Stable sorting before truncation (C5) -/

theorem kw_le_trans (a b c : Kw) :
    (fun x y : Kw => decide (y.weight ≤ x.weight)) a b = true →
    (fun x y : Kw => decide (y.weight ≤ x.weight)) b c = true →
    (fun x y : Kw => decide (y.weight ≤ x.weight)) a c = true := by
  simp only [decide_eq_true_eq]
  omega

theorem kw_le_total (a b : Kw) :
    ((fun x y : Kw => decide (y.weight ≤ x.weight)) a b ||
      (fun x y : Kw => decide (y.weight ≤ x.weight)) b a) = true := by
  simp only [Bool.or_eq_true, decide_eq_true_eq]
  omega

/-- **C5 (amended).** In `daily_build.enforce_keyword_rules` the
deduplicated list is sorted by weight descending with a stable sort before
truncation to 30: the sorted list is pairwise weight-descending, each
equal-weight class keeps its prior relative order (filtering the sorted
list by any weight value gives exactly the filtered pre-sort list), and no
dropped entry has larger weight than any kept entry.  (At the
`gen_keywords.main` call site, by contrast, the deduplicated list is
truncated without sorting — see the counterexample.) -/
theorem enforce_sort_stable (items : List KwIn) :
    enforce_keyword_rules items = (sortByWeightDesc (enforceGo items [])).take 30 ∧
    (sortByWeightDesc (enforceGo items [])).Pairwise
      (fun a b => b.weight ≤ a.weight) ∧
    (∀ k : Int,
      (sortByWeightDesc (enforceGo items [])).filter (fun kw => kw.weight == k) =
        (enforceGo items []).filter (fun kw => kw.weight == k)) ∧
    (∀ d ∈ (sortByWeightDesc (enforceGo items [])).drop 30,
      ∀ kq ∈ enforce_keyword_rules items, d.weight ≤ kq.weight) := by
  have hpair0 := List.sorted_mergeSort kw_le_trans kw_le_total (enforceGo items [])
  refine ⟨rfl, hpair0.imp (fun h => of_decide_eq_true h), ?_, ?_⟩
  · intro k
    have hmemw : ∀ a ∈ (enforceGo items []).filter (fun kw => kw.weight == k),
        a.weight = k := by
      intro a ha
      have := (List.mem_filter.mp ha).2
      exact eq_of_beq this
    have hpairc : ((enforceGo items []).filter (fun kw => kw.weight == k)).Pairwise
        (fun a b => (fun x y : Kw => decide (y.weight ≤ x.weight)) a b = true) := by
      apply List.pairwise_of_forall_mem_list
      intro a ha b hb
      simp only [decide_eq_true_eq, hmemw a ha, hmemw b hb]
      exact le_refl k
    have hsubl : List.Sublist ((enforceGo items []).filter (fun kw => kw.weight == k))
        (enforceGo items []) := List.filter_sublist _
    have h1 := List.sublist_mergeSort kw_le_trans kw_le_total hpairc hsubl
    have hself : ((enforceGo items []).filter (fun kw => kw.weight == k)).filter
        (fun kw => kw.weight == k) =
        (enforceGo items []).filter (fun kw => kw.weight == k) :=
      List.filter_eq_self.mpr (fun a ha => (List.mem_filter.mp ha).2)
    have h2 := h1.filter (fun kw => kw.weight == k)
    rw [hself] at h2
    have h3 := (List.mergeSort_perm (enforceGo items [])
      (fun x y : Kw => decide (y.weight ≤ x.weight))).filter
      (fun kw => kw.weight == k)
    exact (h2.eq_of_length h3.length_eq.symm).symm
  · intro d hd kq hkq
    have hpair : (sortByWeightDesc (enforceGo items [])).Pairwise
        (fun a b => b.weight ≤ a.weight) :=
      hpair0.imp (fun h => of_decide_eq_true h)
    rw [← List.take_append_drop 30 (sortByWeightDesc (enforceGo items []))] at hpair
    rw [enforce_keyword_rules] at hkq
    exact (List.pairwise_append.mp hpair).2.2 kq hkq d hd

/-- 31 distinct candidate words; only the last has weight 3. -/
def cand31 : List Kw :=
  (List.range 31).map (fun i => ⟨toString i, if i = 30 then 3 else 1⟩)

/-- **C5 counterexample.** At the `gen_keywords.main` call site
(`dedupe_keep_best` then `[:30]`, with no sort in between) the one
weight-3 candidate — placed last among 31 distinct candidates — is dropped
by the truncation while 30 earlier weight-1 candidates survive, so the
deduplicated surviving list is *not* sorted by weight descending before
being truncated. -/
theorem gen_truncation_drops_heavy :
    (cand31.filter (fun kw => kw.weight == 3)).length = 1 ∧
    (gen_keywords_postprocess cand31).filter (fun kw => kw.weight == 3) = [] ∧
    (gen_keywords_postprocess cand31).length = 30 := by decide

/-! # Idempotence on canonical tiered input (C9) -/

/-- The dict `{"word": kw["word"], "weight": kw["weight"]}` seen by
`enforce_keyword_rules` when the pipeline's own output is fed back in. -/
def toKwIn (kw : Kw) : KwIn :=
  ⟨some kw.word, none, some kw.weight, none⟩

theorem claimBandWeight_antitone (n : Nat) {i j : Nat} (h : i ≤ j) :
    claimBandWeight j n ≤ claimBandWeight i n := by
  unfold claimBandWeight claimTopSize claimMidSize
  split_ifs <;> omega

/-- Feeding back keywords whose words are already normalization fixpoints,
non-empty and pairwise distinct, and whose weights are in `{1,2,3}`,
the cleaning loop reproduces them unchanged. -/
theorem enforceGo_fixed (xs : List Kw) :
    ∀ seen : List String,
      (∀ kw ∈ xs, normalize_no_accents kw.word = kw.word ∧ kw.word ≠ "" ∧
        (kw.weight = 1 ∨ kw.weight = 2 ∨ kw.weight = 3)) →
      (xs.map Kw.word).Nodup →
      (∀ kw ∈ xs, kw.word ∉ seen) →
      enforceGo (xs.map toKwIn) seen = xs := by
  induction xs with
  | nil =>
    intro seen _ _ _
    rfl
  | cons kw rest ih =>
    intro seen hcanon hnodup hseen
    obtain ⟨hnorm, hne, hw⟩ := hcanon kw (List.mem_cons_self _ _)
    have hkwseen := hseen kw (List.mem_cons_self _ _)
    have hword : orStr (toKwIn kw).word? (orStr (toKwIn kw).k? "") = kw.word := by
      simp [toKwIn, orStr, hne]
    have hweight : orInt (toKwIn kw).weight? (orInt (toKwIn kw).w? 1) = kw.weight := by
      have hz : kw.weight ≠ 0 := by rcases hw with h | h | h <;> simp [h]
      simp [toKwIn, orInt, hz]
    have hclamp :
        (if kw.weight ≥ 3 then (3 : Int) else if kw.weight = 2 then 2 else 1) =
          kw.weight := by
      rcases hw with h | h | h <;> simp [h]
    simp only [List.map_cons, enforceGo, hword, hweight, hnorm, hclamp, hne,
      if_false, hkwseen]
    rw [List.map_cons, List.nodup_cons] at hnodup
    have hhead := hnodup.1
    have hnodup' := hnodup.2
    rw [ih (kw.word :: seen) (fun k hk => hcanon k (List.mem_cons_of_mem _ hk))
      hnodup' ?_]
    intro k hk
    simp only [List.mem_cons, not_or]
    refine ⟨fun hc => hhead ?_, hseen k (List.mem_cons_of_mem _ hk)⟩
    rw [← hc]
    exact List.mem_map_of_mem Kw.word hk

/-- **C9.** On an already-canonical, already-tiered keyword list of size at
most 30 (words are normalization fixpoints, non-empty and distinct; the
weight at each rank is exactly the band weight for that rank and size),
running the canonicalization-plus-retiering pipeline again returns the
list unchanged — so applying the pipeline twice equals applying it once. -/
theorem pipeline_idempotent (xs : List Kw)
    (hlen : xs.length ≤ 30)
    (hcanon : xs.all
      (fun kw => normalize_no_accents kw.word == kw.word && kw.word != "") = true)
    (hnodup : (xs.map Kw.word).Nodup)
    (htier : xs.map Kw.weight =
      (List.range xs.length).map (fun i => claimBandWeight i xs.length)) :
    redistribute_weights (enforce_keyword_rules (xs.map toKwIn)) = xs := by
  have hcanon' : ∀ kw ∈ xs,
      normalize_no_accents kw.word = kw.word ∧ kw.word ≠ "" := by
    intro kw hkw
    have := List.all_eq_true.mp hcanon kw hkw
    simp only [Bool.and_eq_true, beq_iff_eq, bne_iff_ne, ne_eq] at this
    exact ⟨this.1, this.2⟩
  have hpoint : ∀ (i : Nat) (kw : Kw), xs[i]? = some kw →
      kw.weight = claimBandWeight i xs.length := by
    intro i kw hx
    have hi : i < xs.length := by
      have := List.getElem?_eq_some_iff.mp hx
      exact this.1
    have hcong := congrArg (fun l => l[i]?) htier
    simp only [List.getElem?_map, hx, List.getElem?_range hi, Option.map_some',
      Option.some.injEq] at hcong
    exact hcong
  have hw123 : ∀ kw ∈ xs, kw.weight = 1 ∨ kw.weight = 2 ∨ kw.weight = 3 := by
    intro kw hkw
    rcases List.mem_iff_getElem?.mp hkw with ⟨i, hi⟩
    rw [hpoint i kw hi]
    rcases claimBandWeight_cases i xs.length with h | h | h <;> simp [h]
  have h1 : enforceGo (xs.map toKwIn) [] = xs :=
    enforceGo_fixed xs []
      (fun kw hkw => ⟨(hcanon' kw hkw).1, (hcanon' kw hkw).2, hw123 kw hkw⟩)
      hnodup (fun kw _ => List.not_mem_nil kw.word)
  have hpair : xs.Pairwise
      (fun a b => (fun x y : Kw => decide (y.weight ≤ x.weight)) a b = true) := by
    rw [List.pairwise_iff_getElem]
    intro i j hi hj hij
    have hxi : xs[i]? = some xs[i] := List.getElem?_eq_getElem hi
    have hxj : xs[j]? = some xs[j] := List.getElem?_eq_getElem hj
    simp only [decide_eq_true_eq]
    rw [hpoint i xs[i] hxi, hpoint j xs[j] hxj]
    exact claimBandWeight_antitone xs.length (Nat.le_of_lt hij)
  have h2 : sortByWeightDesc xs = xs := List.mergeSort_of_sorted hpair
  have h3 : enforce_keyword_rules (xs.map toKwIn) = xs := by
    rw [enforce_keyword_rules, h1, h2]
    exact List.take_of_length_le hlen
  rw [h3]
  apply List.ext_getElem?
  intro i
  rw [redistribute_weights_getElem?]
  cases hx : xs[i]? with
  | none => rfl
  | some kw =>
    simp only [Option.map_some', Option.some.injEq]
    have := hpoint i kw hx
    cases kw
    simp only at this
    rw [this]

def kwAmor : Kw := ⟨"amor", 3⟩

theorem pipeline_idempotent_witness :
    ([kwAmor].length ≤ 30) ∧
    ([kwAmor].all
      (fun kw => normalize_no_accents kw.word == kw.word && kw.word != "") = true) ∧
    (([kwAmor].map Kw.word).Nodup) ∧
    ([kwAmor].map Kw.weight =
      (List.range [kwAmor].length).map
        (fun i => claimBandWeight i [kwAmor].length)) ∧
    redistribute_weights (enforce_keyword_rules ([kwAmor].map toKwIn)) = [kwAmor] :=
  ⟨by decide, by decide, by decide, by decide,
    pipeline_idempotent [kwAmor] (by decide) (by decide) (by decide) (by decide)⟩

def metaMarch : Meta := ⟨some "2025-03-10", none, none, none, none, none, none⟩

theorem build_entry_spec_witness :
    dateRe (pyStrip (metaMarch.date?.getD "")).data = true ∧
    build_entry metaMarch "textos/2025-03-10.txt" [] =
      .ok ⟨"2025-03-10", "2025-03", "textos/2025-03-10.txt", "", "",
        ⟨"", "", "", ""⟩, []⟩ :=
  ⟨by decide,
    (build_entry_spec metaMarch "textos/2025-03-10.txt" []).2.1 (by decide)⟩

/-! # Concrete instantiations of the remaining universal theorems -/

def kwNine : List Kw := [⟨"mar", 9⟩, ⟨"rio", 0⟩]

theorem redistribute_weights_band_witness :
    redistribute_weights kwNine = [⟨"mar", 3⟩, ⟨"rio", 3⟩] ∧
    ((∀ j : Nat, (redistribute_weights kwNine)[j]? =
        kwNine[j]?.map (fun kw => ⟨kw.word, claimBandWeight j kwNine.length⟩)) ∧
      (∀ kw ∈ redistribute_weights kwNine,
        kw.weight = 1 ∨ kw.weight = 2 ∨ kw.weight = 3)) :=
  ⟨by decide, redistribute_weights_band kwNine⟩

def kwFrame : List Kw := [⟨"luz", 1⟩, ⟨"sombra", 2⟩, ⟨"mar", 1⟩, ⟨"sal", 1⟩]

theorem redistribute_weights_frame_witness :
    (redistribute_weights kwFrame).map Kw.word = ["luz", "sombra", "mar", "sal"] ∧
    ((redistribute_weights kwFrame).length = kwFrame.length ∧
      (redistribute_weights kwFrame).map Kw.word = kwFrame.map Kw.word) :=
  ⟨by decide, redistribute_weights_frame kwFrame⟩

def shapeItems : List Json := [.obj [("word", .str "mar"), ("weight", .num 2)]]

theorem keyword_response_shapes_witness :
    parse_keywords_json (.arr shapeItems) = .ok [⟨"mar", 2⟩] ∧
    ((parse_keywords_json (.arr shapeItems)).isOk = true ∧
      parse_keywords_json (.obj [("keywords", .arr shapeItems)]) =
        parse_keywords_json (.arr shapeItems) ∧
      call_openai_extract (.obj [("keywords", .arr shapeItems)]) = .ok shapeItems ∧
      (call_openai_extract (.arr shapeItems)).isOk = false) :=
  ⟨rfl, keyword_response_shapes shapeItems⟩

def stableItems : List KwIn :=
  [⟨some "b", none, some 1, none⟩, ⟨some "a", none, some 3, none⟩,
   ⟨some "c", none, some 1, none⟩]

theorem enforce_sort_stable_witness :
    enforceGo stableItems [] = [⟨"b", 1⟩, ⟨"a", 3⟩, ⟨"c", 1⟩] ∧
    (enforce_keyword_rules stableItems =
        (sortByWeightDesc (enforceGo stableItems [])).take 30 ∧
      (sortByWeightDesc (enforceGo stableItems [])).Pairwise
        (fun a b => b.weight ≤ a.weight) ∧
      (∀ k : Int,
        (sortByWeightDesc (enforceGo stableItems [])).filter
            (fun kw => kw.weight == k) =
          (enforceGo stableItems []).filter (fun kw => kw.weight == k)) ∧
      (∀ d ∈ (sortByWeightDesc (enforceGo stableItems [])).drop 30,
        ∀ kq ∈ enforce_keyword_rules stableItems, d.weight ≤ kq.weight)) :=
  ⟨by decide, enforce_sort_stable stableItems⟩

def accentItems : List KwIn := [⟨some "  ILUSIÓN  ", none, some 9, none⟩]

theorem enforce_keyword_rules_canonical_witness :
    enforceGo accentItems [] = [⟨"ilusion", 3⟩] ∧
    ((enforce_keyword_rules accentItems).length ≤ 30 ∧
      (∀ kw ∈ enforce_keyword_rules accentItems,
        kw.word ≠ "" ∧
        (∀ c ∈ kw.word.data, pyLower c = c) ∧
        (∀ c ∈ kw.word.data, isMn c = false) ∧
        (∀ c ∈ kw.word.data, pySpace c = true → c = ' ') ∧
        kw.word.data.Chain' (fun x y => ¬(pySpace x ∧ pySpace y))) ∧
      ((enforce_keyword_rules accentItems).map Kw.word).Nodup ∧
      normalize_no_accents "ilusión" = "ilusion") :=
  ⟨by decide, enforce_keyword_rules_canonical accentItems⟩

end QMP
